import Mathlib

/-!
# Formal model of the stemmy board ATAG hand-off engine

A shallow embedding of `board/ste/stemmy/stemmy.c` (U-Boot, novathor/stemmy
board): the tagged-record (ATAG) processing engine that

  * validates the source tag list handed over by the primary bootloader
    (`fw_atags_get`),
  * extracts the RAM layout (`dram_init`, `dram_init_banksize`),
  * extracts the device serial number into the environment (`parse_serial`),
  * produces a filtered copy of the list (`skip_atag`, `copy_atags`), and
  * re-emits that copy at hand-off (`setup_board_tags`).

Machine integers are modelled as `Nat` with explicit `% 2^32` where the C
code performs wrapping 32-bit arithmetic.  A tag list in memory is modelled
as a `List tag` of parsed records; the bridge between the raw byte buffer
and that list is the well-formedness predicate `srcWf` (each record's
declared size in words matches its actual extent, because the extent of a
record in the byte buffer *is* whatever its size field declares, and the
whole contiguous buffer fits a 32-bit address space).
-/

set_option autoImplicit false

namespace Stemmy

/-- ATAG tag identifiers.  Modelled from the spec: the numeric constants live
in `asm/setup.h`, which is not part of the board file; the values are the
standard ARM ATAG identifiers.  Only their distinctness matters here. -/
def ATAG_NONE : Nat := 0x00000000

/-- Standard ARM ATAG identifier for the leading core record. -/
def ATAG_CORE : Nat := 0x54410001

/-- Standard ARM ATAG identifier for a memory-bank record. -/
def ATAG_MEM : Nat := 0x54410002

/-- Standard ARM ATAG identifier for a ramdisk (v1) record. -/
def ATAG_INITRD : Nat := 0x54410005

/-- Standard ARM ATAG identifier for a ramdisk (v2) record. -/
def ATAG_INITRD2 : Nat := 0x54420005

/-- Standard ARM ATAG identifier for a serial-number record. -/
def ATAG_SERIAL : Nat := 0x54410006

/-- Standard ARM ATAG identifier for a kernel command-line record. -/
def ATAG_CMDLINE : Nat := 0x54410009

/-- `struct tag_header`: tag identifier and total record size in 4-byte
words (header included). -/
structure tag_header where
  tag : Nat
  size : Nat
deriving Repr, DecidableEq

/-- `struct tag`: header followed by the payload, modelled as the list of
32-bit payload words that follow the two header words in memory. -/
structure tag where
  hdr : tag_header
  payload : List Nat
deriving Repr, DecidableEq

/-- `t->u.mem.size`: `struct tag_mem32 { u32 size; u32 start; }`, so the
size is the first payload word. -/
def tag.u_mem_size (t : tag) : Nat := t.payload.getD 0 0

/-- `t->u.mem.start`: the second payload word of a MEM record. -/
def tag.u_mem_start (t : tag) : Nat := t.payload.getD 1 0

/-- `t->u.serialnr.low`: `struct tag_serialnr { u32 low; u32 high; }`, so
the low half is the first payload word. -/
def tag.u_serialnr_low (t : tag) : Nat := t.payload.getD 0 0

/-- `t->u.serialnr.high`: the second payload word of a SERIAL record. -/
def tag.u_serialnr_high (t : tag) : Nat := t.payload.getD 1 0

/-- Modelled from the spec: the Record Iterator (`for_each_tag`/`tag_next`
of `asm/setup.h`, not part of the board file).  The walk yields records in
order, ends (exclusively) at a record whose tag is `ATAG_NONE`, and aborts
(treats as end-of-list) a record whose declared size is zero, so that it can
never loop forever. -/
def walkTags : List tag → List tag
  | [] => []
  | t :: ts =>
    if t.hdr.tag = ATAG_NONE then []
    else if t.hdr.size = 0 then []
    else t :: walkTags ts

/-- `fw_atags_get`: return the saved source list if its first record is a
CORE tag, otherwise log and return NULL (`none`).  An empty buffer holds no
CORE record, hence also `none`. -/
def fw_atags_get (tags : List tag) : Option (List tag) :=
  match tags with
  | [] => none
  | t :: _ => if t.hdr.tag == ATAG_CORE then some tags else none

/-- `skip_atag`: tags that u-boot regenerates itself and therefore must not
copy from the source list. -/
def skip_atag (tg : Nat) : Bool :=
  tg == ATAG_NONE || tg == ATAG_CORE || tg == ATAG_INITRD || tg == ATAG_INITRD2

/-- The environment store (`env_get`/`env_set`): an association list of
string keys and values, most recent binding first. -/
abbrev env_store := List (String × String)

/-- `env_get`: look a key up in the environment store. -/
def env_get (env : env_store) (k : String) : Option String := env.lookup k

/-- `env_set`: bind a key in the environment store. -/
def env_set (env : env_store) (k v : String) : env_store := (k, v) :: env

/-- `struct tag_serialnr`: the two 32-bit halves of the serial number. -/
structure tag_serialnr where
  low : Nat
  high : Nat
deriving Repr, DecidableEq

/-- One lowercase hexadecimal digit. -/
def hexDigit (n : Nat) : Char :=
  if n < 10 then Char.ofNat (48 + n) else Char.ofNat (87 + n)

/-- `sprintf("%08x", n)` for a `u32` argument: exactly eight lowercase hex
digits, zero padded, of the value truncated to 32 bits. -/
def hex8 (n : Nat) : String :=
  String.mk ((List.range 8).map (fun i => hexDigit (n % 4294967296 / 16 ^ (7 - i) % 16)))

/-- `sprintf(serial, "%08x%08x", serialnr->high, serialnr->low)`: the high
half rendered first. -/
def serialString (nr : tag_serialnr) : String := hex8 nr.high ++ hex8 nr.low

/-- `parse_serial`: if `serial#` is not yet set in the environment, format
the serial number and set it; otherwise do nothing. -/
def parse_serial (env : env_store) (nr : tag_serialnr) : env_store :=
  match env_get env "serial#" with
  | some _ => env
  | none => env_set env "serial#" (serialString nr)

/-- The engine's process-wide state: the statics `fw_atags_copy` (the
filtered buffer, `NULL` until produced) and `fw_atags_size` (a C `uint`),
together with the environment store the engine writes into. -/
structure engine_state where
  fw_atags_copy : Option (List tag)
  fw_atags_size : Nat
  env : env_store
deriving Repr, DecidableEq

/-- The state at entry of `misc_init_r`: `fw_atags_copy = NULL`,
`fw_atags_size = 0`, and whatever environment exists. -/
def init_state (env : env_store) : engine_state := ⟨none, 0, env⟩

/-- Pass 1 of `copy_atags` over the walked records: for every record not
classified `skip_atag`, add `hdr.size << 2` to the running `uint` byte total
(wrapping 32-bit arithmetic) and, on a SERIAL record, run `parse_serial` as
a side effect. -/
def sizePass : List tag → Nat → env_store → Nat × env_store
  | [], sz, env => (sz, env)
  | t :: ts, sz, env =>
    if skip_atag t.hdr.tag then sizePass ts sz env
    else
      sizePass ts ((sz + t.hdr.size * 4 % 4294967296) % 4294967296)
        (if t.hdr.tag == ATAG_SERIAL then
          parse_serial env ⟨t.u_serialnr_low, t.u_serialnr_high⟩
        else env)

/-- Pass 2 of `copy_atags` over the walked records: every record not
classified `skip_atag` is copied verbatim to the destination cursor, which
then advances by the record's own extent (`tag_next` on the copy). -/
def copyPass : List tag → List tag
  | [] => []
  | t :: ts => if skip_atag t.hdr.tag then copyPass ts else t :: copyPass ts

/-- The number of bytes the `memcpy` calls of pass 2 write in total: each
copies `t->hdr.size << 2` bytes (a wrapping 32-bit shift). -/
def copyBytesWritten : List tag → Nat
  | [] => 0
  | t :: ts =>
    if skip_atag t.hdr.tag then copyBytesWritten ts
    else t.hdr.size * 4 % 4294967296 + copyBytesWritten ts

/-- `copy_atags`: a NULL source list returns at once; otherwise pass 1 sizes
the retained set (updating `fw_atags_size` and the environment), a zero
total means nothing to copy, a failed allocation (`allocOk = false`) aborts
silently, and otherwise pass 2 fills the fresh buffer, recorded in
`fw_atags_copy`. -/
def copy_atags (tagsOpt : Option (List tag)) (allocOk : Bool) (st : engine_state) :
    engine_state :=
  match tagsOpt with
  | none => st
  | some tags =>
    let w := walkTags tags
    let szEnv := sizePass w st.fw_atags_size st.env
    let st2 : engine_state := ⟨st.fw_atags_copy, szEnv.1, szEnv.2⟩
    if szEnv.1 = 0 then st2
    else if allocOk = false then st2
    else ⟨some (copyPass w), szEnv.1, szEnv.2⟩

/-- `misc_init_r`: run the filter-copy engine on the validated source list;
always returns 0.  (`check_keys`, the GPIO boot-decision probe, is an
external collaborator and is not part of the record engine modelled here.) -/
def misc_init_r (tags : List tag) (allocOk : Bool) (st : engine_state) :
    Int × engine_state :=
  (0, copy_atags (fw_atags_get tags) allocOk st)

/-- `EINVAL` of errno.h. -/
def EINVAL : Int := 22

/-- The `gd->ram_size +=` loop body of `dram_init` over the walked records:
accumulate `u.mem.size` of every MEM record into a wrapping 32-bit total. -/
def memAccum : List tag → Nat → Nat
  | [], acc => acc
  | t :: ts, acc =>
    if t.hdr.tag == ATAG_MEM then memAccum ts ((acc + t.u_mem_size) % 4294967296)
    else memAccum ts acc

/-- `dram_init`: `-EINVAL` (leaving `gd->ram_size` at its prior value) when
the source list is invalid, otherwise accumulate all MEM record sizes. -/
def dram_init (tags : List tag) (ram0 : Nat) : Int × Nat :=
  match fw_atags_get tags with
  | none => (-EINVAL, ram0)
  | some ts => (0, memAccum (walkTags ts) ram0)

/-- The bank-filling loop of `dram_init_banksize` over the walked records:
write each MEM record's `(start, size)` into the next bank slot and break
once `++bank == cap` (the compile-time `CONFIG_NR_DRAM_BANKS`). -/
def fillBanks (cap : Nat) : List tag → Nat → List (Nat × Nat)
  | [], _ => []
  | t :: ts, bank =>
    if t.hdr.tag == ATAG_MEM then
      if bank + 1 = cap then [(t.u_mem_start, t.u_mem_size)]
      else (t.u_mem_start, t.u_mem_size) :: fillBanks cap ts (bank + 1)
    else fillBanks cap ts bank

/-- `dram_init_banksize`: `-EINVAL` with an untouched (empty) bank table
when the source list is invalid, otherwise fill the table. -/
def dram_init_banksize (tags : List tag) (cap : Nat) : Int × List (Nat × Nat) :=
  match fw_atags_get tags with
  | none => (-EINVAL, [])
  | some ts => (0, fillBanks cap (walkTags ts) 0)

/-- A 32-bit word as its four bytes, little endian, as laid out in the tag
buffer. -/
def u32bytes (n : Nat) : List Nat :=
  [n % 256, n / 256 % 256, n / 65536 % 256, n / 16777216 % 256]

/-- The bytes of one record as laid out in memory: the two header words
followed by the payload words. -/
def tagBytes (t : tag) : List Nat :=
  u32bytes t.hdr.tag ++ u32bytes t.hdr.size ++ (t.payload.map u32bytes).flatten

/-- The bytes of a record list as laid out contiguously in memory. -/
def tagsBytes (ts : List tag) : List Nat := (ts.map tagBytes).flatten

/-- `setup_board_tags`: if no filtered buffer exists this is a no-op;
otherwise `memcpy` the buffer's first `fw_atags_size` bytes to the
caller-supplied cursor (modelled as the bytes already emitted before the
cursor plus the byte position itself) and advance the cursor by
`fw_atags_size`. -/
def setup_board_tags (st : engine_state) (out : List Nat) (cursor : Nat) :
    List Nat × Nat :=
  match st.fw_atags_copy with
  | none => (out, cursor)
  | some ts => (out ++ (tagsBytes ts).take st.fw_atags_size, cursor + st.fw_atags_size)

/-- Total extent in bytes that a record list claims: the sum of
`hdr.size * 4` over its records. -/
def listBytes (ts : List tag) : Nat := (ts.map (fun t => t.hdr.size * 4)).sum

/-- The byte total of the records a walk retains for copying: the sum of
`hdr.size * 4` over the records not classified `skip_atag`. -/
def keptBytes (ts : List tag) : Nat :=
  ((ts.filter (fun t => !skip_atag t.hdr.tag)).map (fun t => t.hdr.size * 4)).sum

/-- Well-formedness of a source list, the bridge between the raw byte
buffer and the parsed `List tag` model: the first record is CORE, the last
is the NONE terminator, no interior record is NONE or has size zero, every
interior record's declared word count matches its actual extent (in the
byte buffer the extent *is* what the size field declares), and the
contiguous buffer fits a 32-bit address space. -/
def srcWf (tags : List tag) : Bool :=
  (match tags.head? with | some t => t.hdr.tag == ATAG_CORE | none => false) &&
  (match tags.getLast? with | some t => t.hdr.tag == ATAG_NONE | none => false) &&
  tags.dropLast.all (fun t =>
    !(t.hdr.tag == ATAG_NONE) && !(t.hdr.size == 0) &&
    (t.hdr.size == 2 + t.payload.length)) &&
  decide (listBytes tags < 4294967296)

/-- The MEM records of a list, in order. -/
def memRecords (ts : List tag) : List tag := ts.filter (fun t => t.hdr.tag == ATAG_MEM)

/-- The declared sizes of the MEM records of a list, in order. -/
def memSizes (ts : List tag) : List Nat := (memRecords ts).map tag.u_mem_size

/-! ### A concrete example list, used to exercise the theorems below -/

/-- A CORE record with an empty payload. -/
def coreT : tag := ⟨⟨ATAG_CORE, 2⟩, []⟩

/-- A MEM record: 256 MiB at `0x20000000`. -/
def memT : tag := ⟨⟨ATAG_MEM, 4⟩, [0x10000000, 0x20000000]⟩

/-- A second MEM record: 128 MiB at `0x40000000`. -/
def memT2 : tag := ⟨⟨ATAG_MEM, 4⟩, [0x08000000, 0x40000000]⟩

/-- A SERIAL record with `low = 1`, `high = 2`. -/
def serT : tag := ⟨⟨ATAG_SERIAL, 4⟩, [1, 2]⟩

/-- A CMDLINE record with a one-word payload. -/
def cmdT : tag := ⟨⟨ATAG_CMDLINE, 3⟩, [65]⟩

/-- An INITRD record (a kind u-boot regenerates). -/
def initrdT : tag := ⟨⟨ATAG_INITRD, 4⟩, [7, 8]⟩

/-- The NONE terminator record. -/
def noneT : tag := ⟨⟨ATAG_NONE, 0⟩, []⟩

/-- A well-formed example source list. -/
def exList : List tag := [coreT, memT, serT, initrdT, memT2, cmdT, noneT]

/-- A malformed record with a zero size field. -/
def zeroT : tag := ⟨⟨ATAG_CMDLINE, 0⟩, []⟩

/-- A malformed source list whose first record is not CORE. -/
def badList : List tag := [memT, noneT]

/-! ### Helper lemmas -/

theorem srcWf_parts {tags : List tag} (h : srcWf tags = true) :
    (match tags.head? with | some t => t.hdr.tag == ATAG_CORE | none => false) = true ∧
    (match tags.getLast? with | some t => t.hdr.tag == ATAG_NONE | none => false) = true ∧
    tags.dropLast.all (fun t =>
      !(t.hdr.tag == ATAG_NONE) && !(t.hdr.size == 0) &&
      (t.hdr.size == 2 + t.payload.length)) = true ∧
    listBytes tags < 4294967296 := by
  unfold srcWf at h
  simp only [Bool.and_eq_true, decide_eq_true_eq] at h
  exact ⟨h.1.1.1, h.1.1.2, h.1.2, h.2⟩

theorem srcWf_ne_nil {tags : List tag} (h : srcWf tags = true) : tags ≠ [] := by
  intro he
  subst he
  have h1 := (srcWf_parts h).1
  simp at h1

theorem srcWf_decomp {tags : List tag} (h : srcWf tags = true) :
    ∃ body last, tags = body ++ [last] ∧ body = tags.dropLast ∧
      last.hdr.tag = ATAG_NONE ∧
      (∀ t ∈ body, t.hdr.tag ≠ ATAG_NONE ∧ t.hdr.size ≠ 0 ∧
        t.hdr.size = 2 + t.payload.length) := by
  obtain ⟨h1, h2, h3, _⟩ := srcWf_parts h
  have hne : tags ≠ [] := srcWf_ne_nil h
  refine ⟨tags.dropLast, tags.getLast hne, (List.dropLast_append_getLast hne).symm,
    rfl, ?_, ?_⟩
  · rw [List.getLast?_eq_getLast tags hne] at h2
    simpa using h2
  · intro t ht
    have := List.all_eq_true.mp h3 t ht
    simp only [Bool.and_eq_true, Bool.not_eq_true', beq_iff_eq, beq_eq_false_iff_ne] at this
    exact ⟨this.1.1, this.1.2, this.2⟩

theorem srcWf_head_core {tags : List tag} (h : srcWf tags = true) :
    ∃ t0 ts0, tags = t0 :: ts0 ∧ t0.hdr.tag = ATAG_CORE := by
  have h1 := (srcWf_parts h).1
  cases tags with
  | nil => simp at h1
  | cons t0 ts0 =>
    refine ⟨t0, ts0, rfl, ?_⟩
    simpa using h1

theorem fw_atags_get_of_wf {tags : List tag} (h : srcWf tags = true) :
    fw_atags_get tags = some tags := by
  obtain ⟨t0, ts0, heq, hcore⟩ := srcWf_head_core h
  subst heq
  simp [fw_atags_get, hcore]

theorem walkTags_append_none (body : List tag) (last : tag)
    (hl : last.hdr.tag = ATAG_NONE)
    (hb : ∀ t ∈ body, t.hdr.tag ≠ ATAG_NONE ∧ t.hdr.size ≠ 0) :
    walkTags (body ++ [last]) = body := by
  induction body with
  | nil => simp [walkTags, hl]
  | cons t ts ih =>
    have h1 := hb t (by simp)
    have h2 : walkTags (ts ++ [last]) = ts := ih (fun u hu => hb u (by simp [hu]))
    simp [walkTags, h1.1, h1.2, h2]

theorem srcWf_walk {tags : List tag} (h : srcWf tags = true) :
    walkTags tags = tags.dropLast := by
  obtain ⟨body, last, heq, hdrop, hl, hb⟩ := srcWf_decomp h
  rw [heq, walkTags_append_none body last hl (fun t ht => ⟨(hb t ht).1, (hb t ht).2.1⟩)]
  rw [heq] at hdrop
  exact hdrop

theorem listBytes_cons (t : tag) (ts : List tag) :
    listBytes (t :: ts) = t.hdr.size * 4 + listBytes ts := by
  simp [listBytes]

theorem keptBytes_cons_skip {t : tag} (ts : List tag) (h : skip_atag t.hdr.tag = true) :
    keptBytes (t :: ts) = keptBytes ts := by
  simp [keptBytes, List.filter_cons, h]

theorem keptBytes_cons_keep {t : tag} (ts : List tag) (h : skip_atag t.hdr.tag = false) :
    keptBytes (t :: ts) = t.hdr.size * 4 + keptBytes ts := by
  simp [keptBytes, List.filter_cons, h]

theorem elem_bytes_le (ts : List tag) : ∀ t ∈ ts, t.hdr.size * 4 ≤ listBytes ts := by
  induction ts with
  | nil => simp
  | cons u ts ih =>
    intro t ht
    rw [listBytes_cons]
    rcases List.mem_cons.mp ht with h | h
    · subst h; omega
    · have := ih t h; omega

theorem keptBytes_le_listBytes (ts : List tag) : keptBytes ts ≤ listBytes ts := by
  induction ts with
  | nil => simp [keptBytes, listBytes]
  | cons t ts ih =>
    rw [listBytes_cons]
    by_cases h : skip_atag t.hdr.tag
    · rw [keptBytes_cons_skip ts h]; omega
    · rw [keptBytes_cons_keep ts (by simpa using h)]; omega

theorem sizePass_fst (ts : List tag) :
    ∀ (acc : Nat) (env : env_store),
      (∀ t ∈ ts, t.hdr.size * 4 < 4294967296) →
      acc + keptBytes ts < 4294967296 →
      (sizePass ts acc env).1 = acc + keptBytes ts := by
  induction ts with
  | nil =>
    intro acc env _ _
    simp [sizePass, keptBytes]
  | cons t ts ih =>
    intro acc env hbound hsum
    by_cases hsk : skip_atag t.hdr.tag
    · rw [keptBytes_cons_skip ts hsk] at hsum ⊢
      simp only [sizePass, hsk, if_true]
      exact ih acc env (fun u hu => hbound u (by simp [hu])) hsum
    · have hsk' : skip_atag t.hdr.tag = false := by simpa using hsk
      rw [keptBytes_cons_keep ts hsk'] at hsum ⊢
      have hb : t.hdr.size * 4 < 4294967296 := hbound t (by simp)
      have hm1 : t.hdr.size * 4 % 4294967296 = t.hdr.size * 4 := Nat.mod_eq_of_lt hb
      have hm2 : (acc + t.hdr.size * 4) % 4294967296 = acc + t.hdr.size * 4 :=
        Nat.mod_eq_of_lt (by omega)
      simp only [sizePass, hsk', Bool.false_eq_true, if_false, hm1, hm2]
      rw [ih (acc + t.hdr.size * 4) _ (fun u hu => hbound u (by simp [hu])) (by omega)]
      omega

theorem copyBytesWritten_eq (ts : List tag)
    (hbound : ∀ t ∈ ts, t.hdr.size * 4 < 4294967296) :
    copyBytesWritten ts = keptBytes ts := by
  induction ts with
  | nil => simp [copyBytesWritten, keptBytes]
  | cons t ts ih =>
    have ih2 := ih (fun u hu => hbound u (by simp [hu]))
    by_cases hsk : skip_atag t.hdr.tag
    · rw [keptBytes_cons_skip ts hsk]
      simp only [copyBytesWritten, hsk, if_true]
      exact ih2
    · have hsk' : skip_atag t.hdr.tag = false := by simpa using hsk
      rw [keptBytes_cons_keep ts hsk']
      have hb : t.hdr.size * 4 < 4294967296 := hbound t (by simp)
      simp only [copyBytesWritten, hsk', Bool.false_eq_true, if_false,
        Nat.mod_eq_of_lt hb]
      omega

theorem copyPass_eq_filter (ts : List tag) :
    copyPass ts = ts.filter (fun t => !skip_atag t.hdr.tag) := by
  induction ts with
  | nil => rfl
  | cons t ts ih =>
    by_cases h : skip_atag t.hdr.tag
    · simp [copyPass, List.filter_cons, h, ih]
    · have h' : skip_atag t.hdr.tag = false := by simpa using h
      simp [copyPass, List.filter_cons, h', ih]

theorem keptBytes_zero {ts : List tag} (hsz : ∀ t ∈ ts, t.hdr.size ≠ 0)
    (h0 : keptBytes ts = 0) :
    ts.filter (fun t => !skip_atag t.hdr.tag) = [] := by
  induction ts with
  | nil => rfl
  | cons t ts ih =>
    by_cases hsk : skip_atag t.hdr.tag
    · rw [keptBytes_cons_skip ts hsk] at h0
      have h2 := ih (fun u hu => hsz u (by simp [hu])) h0
      simp [List.filter_cons, hsk, h2]
    · rw [keptBytes_cons_keep ts (by simpa using hsk)] at h0
      have := hsz t (by simp)
      omega

/-- The per-record and total byte bounds that `srcWf` guarantees for the
walked records. -/
theorem srcWf_kept_facts {tags : List tag} (h : srcWf tags = true) :
    (∀ t ∈ walkTags tags, t.hdr.size * 4 < 4294967296) ∧
    keptBytes (walkTags tags) < 4294967296 := by
  have hbytes := (srcWf_parts h).2.2.2
  have hw := srcWf_walk h
  have hsub : ∀ t ∈ walkTags tags, t ∈ tags := by
    intro t ht
    rw [hw] at ht
    exact (List.dropLast_sublist tags).mem ht
  constructor
  · intro t ht
    have := elem_bytes_le tags t (hsub t ht)
    omega
  · have h1 : keptBytes (walkTags tags) ≤ listBytes (walkTags tags) :=
      keptBytes_le_listBytes _
    have h2 : listBytes (walkTags tags) ≤ listBytes tags := by
      obtain ⟨body, last, heq, hdrop, _, _⟩ := srcWf_decomp h
      rw [hw, ← hdrop, heq, listBytes, listBytes, List.map_append, List.sum_append]
      simp
    omega

/-- In every branch of `copy_atags` on a non-NULL list, the final
`fw_atags_size` is the pass-1 total. -/
theorem copy_atags_size (tags : List tag) (allocOk : Bool) (st : engine_state) :
    (copy_atags (some tags) allocOk st).fw_atags_size =
      (sizePass (walkTags tags) st.fw_atags_size st.env).1 := by
  simp only [copy_atags]
  by_cases h0 : (sizePass (walkTags tags) st.fw_atags_size st.env).1 = 0
  · simp [h0]
  · by_cases ha : allocOk = false <;> simp [h0, ha]

/-- When the pass-1 total is nonzero and allocation succeeds, the filtered
buffer holds exactly the pass-2 output. -/
theorem copy_atags_copy_some (tags : List tag) (st : engine_state)
    (hsz : (sizePass (walkTags tags) st.fw_atags_size st.env).1 ≠ 0) :
    (copy_atags (some tags) true st).fw_atags_copy =
      some (copyPass (walkTags tags)) := by
  unfold copy_atags
  simp [hsz]

/-- When the pass-1 total is zero, no buffer is produced. -/
theorem copy_atags_copy_zero (tags : List tag) (allocOk : Bool) (st : engine_state)
    (hsz : (sizePass (walkTags tags) st.fw_atags_size st.env).1 = 0) :
    (copy_atags (some tags) allocOk st).fw_atags_copy = st.fw_atags_copy := by
  unfold copy_atags
  simp [hsz]

/-- When allocation fails, no buffer is produced. -/
theorem copy_atags_alloc_fail (tagsOpt : Option (List tag)) (st : engine_state) :
    (copy_atags tagsOpt false st).fw_atags_copy = st.fw_atags_copy := by
  cases tagsOpt with
  | none => rfl
  | some tags =>
    unfold copy_atags
    split <;> simp

theorem memSizes_cons_mem {t : tag} (ts : List tag) (h : t.hdr.tag = ATAG_MEM) :
    memSizes (t :: ts) = t.u_mem_size :: memSizes ts := by
  simp [memSizes, memRecords, List.filter_cons, h]

theorem memSizes_cons_other {t : tag} (ts : List tag) (h : t.hdr.tag ≠ ATAG_MEM) :
    memSizes (t :: ts) = memSizes ts := by
  simp [memSizes, memRecords, List.filter_cons, h]

theorem memAccum_eq (ts : List tag) :
    ∀ acc : Nat, acc + (memSizes ts).sum < 4294967296 →
      memAccum ts acc = acc + (memSizes ts).sum := by
  induction ts with
  | nil =>
    intro acc _
    simp [memAccum, memSizes, memRecords]
  | cons t ts ih =>
    intro acc hsum
    by_cases hm : t.hdr.tag = ATAG_MEM
    · rw [memSizes_cons_mem ts hm] at hsum ⊢
      simp only [List.sum_cons] at hsum ⊢
      have hmod : (acc + t.u_mem_size) % 4294967296 = acc + t.u_mem_size :=
        Nat.mod_eq_of_lt (by omega)
      simp only [memAccum, hm, beq_self_eq_true, if_true, hmod]
      rw [ih (acc + t.u_mem_size) (by omega)]
      omega
    · rw [memSizes_cons_other ts hm] at hsum ⊢
      have hm' : (t.hdr.tag == ATAG_MEM) = false := by simpa using hm
      simp only [memAccum, hm', Bool.false_eq_true, if_false]
      exact ih acc hsum

theorem fillBanks_eq (cap : Nat) (ts : List tag) :
    ∀ bank : Nat, bank < cap →
      fillBanks cap ts bank =
        ((memRecords ts).take (cap - bank)).map
          (fun t => (t.u_mem_start, t.u_mem_size)) := by
  induction ts with
  | nil =>
    intro bank _
    simp [fillBanks, memRecords]
  | cons t ts ih =>
    intro bank hb
    by_cases hm : t.hdr.tag = ATAG_MEM
    · have hrec : memRecords (t :: ts) = t :: memRecords ts := by
        simp [memRecords, List.filter_cons, hm]
      by_cases hcap : bank + 1 = cap
      · have h1 : cap - bank = 1 := by omega
        simp [fillBanks, hm, hcap, hrec, h1]
      · have h2 : bank + 1 < cap := by omega
        have h3 : cap - bank = (cap - (bank + 1)) + 1 := by omega
        rw [hrec]
        simp only [fillBanks, hm, beq_self_eq_true, if_true, hcap, if_false, h3,
          List.take_succ_cons, List.map_cons]
        rw [ih (bank + 1) h2]
    · have hrec : memRecords (t :: ts) = memRecords ts := by
        simp [memRecords, List.filter_cons, hm]
      have hm' : (t.hdr.tag == ATAG_MEM) = false := by simpa using hm
      rw [hrec]
      simp only [fillBanks, hm', Bool.false_eq_true, if_false]
      exact ih bank hb

/-- The NONE terminator is not a MEM record, so the MEM records of a
well-formed list are the MEM records of its body. -/
theorem memRecords_dropLast {tags : List tag} (h : srcWf tags = true) :
    memRecords tags.dropLast = memRecords tags := by
  obtain ⟨body, last, heq, hdrop, hl, _⟩ := srcWf_decomp h
  have hne : (last.hdr.tag == ATAG_MEM) = false := by
    rw [hl]; rfl
  rw [← hdrop, heq, memRecords, memRecords, List.filter_append]
  simp [List.filter_cons, hne]

theorem flatten_u32_length (l : List Nat) :
    ((l.map u32bytes).flatten).length = 4 * l.length := by
  induction l with
  | nil => rfl
  | cons x l ih =>
    simp only [List.map_cons, List.flatten_cons, List.length_append, ih,
      List.length_cons, u32bytes]
    simp
    omega

theorem tagBytes_length (t : tag) :
    (tagBytes t).length = 8 + 4 * t.payload.length := by
  simp only [tagBytes, List.length_append, flatten_u32_length, u32bytes]
  simp

theorem tagsBytes_cons (t : tag) (ts : List tag) :
    tagsBytes (t :: ts) = tagBytes t ++ tagsBytes ts := by
  simp [tagsBytes]

theorem tagsBytes_length (ts : List tag)
    (hts : ∀ t ∈ ts, t.hdr.size = 2 + t.payload.length) :
    (tagsBytes ts).length = (ts.map (fun t => t.hdr.size * 4)).sum := by
  induction ts with
  | nil => rfl
  | cons t ts ih =>
    rw [tagsBytes_cons, List.length_append, tagBytes_length,
      ih (fun u hu => hts u (by simp [hu]))]
    have := hts t (by simp)
    simp only [List.map_cons, List.sum_cons]
    omega

/-! ### Claim theorems -/

/-- C1: for every well-formed source tag list (first tag CORE, terminated
by NONE, no zero-size records) that is not mutated between the two passes
of `copy_atags`, the total number of bytes written by the copy pass equals
the byte total computed by the sizing pass, i.e. the sum of `hdr.size * 4`
over all non-skipped records. -/
theorem copy_pass_bytes_match_size_pass (tags : List tag) (env : env_store)
    (h : srcWf tags = true) :
    copyBytesWritten (walkTags tags) =
      (copy_atags (some tags) true (init_state env)).fw_atags_size ∧
    (copy_atags (some tags) true (init_state env)).fw_atags_size =
      keptBytes (walkTags tags) := by
  obtain ⟨hbound, hkept⟩ := srcWf_kept_facts h
  have hsz : (copy_atags (some tags) true (init_state env)).fw_atags_size
      = keptBytes (walkTags tags) := by
    rw [copy_atags_size]
    have := sizePass_fst (walkTags tags) 0 env hbound (by omega)
    simpa [init_state] using this
  exact ⟨by rw [copyBytesWritten_eq _ hbound, hsz], hsz⟩

/-- Witness for C1: the equality at the concrete example list. -/
theorem copy_pass_bytes_match_size_pass_witness :
    copyBytesWritten (walkTags exList) =
      (copy_atags (some exList) true (init_state [])).fw_atags_size ∧
    (copy_atags (some exList) true (init_state [])).fw_atags_size =
      keptBytes (walkTags exList) :=
  copy_pass_bytes_match_size_pass exList [] (by decide)

/-- C2: for every well-formed source list, the filtered buffer produced by
`copy_atags` holds exactly the source records whose tag is not in
{NONE, CORE, INITRD, INITRD2}, verbatim, in source order, none dropped or
duplicated (an empty retained set yields no buffer, read as the empty
list). -/
theorem copy_atags_filters_regenerated (tags : List tag) (env : env_store)
    (h : srcWf tags = true) :
    ((copy_atags (some tags) true (init_state env)).fw_atags_copy).getD [] =
      tags.filter (fun t => !skip_atag t.hdr.tag) := by
  obtain ⟨hbound, hkept⟩ := srcWf_kept_facts h
  obtain ⟨body, last, heq, hdrop, hl, hb⟩ := srcWf_decomp h
  have hw : walkTags tags = body := by rw [srcWf_walk h, ← hdrop]
  have hfil : tags.filter (fun t => !skip_atag t.hdr.tag)
      = body.filter (fun t => !skip_atag t.hdr.tag) := by
    have hsk : skip_atag last.hdr.tag = true := by rw [hl]; rfl
    rw [heq, List.filter_append]
    simp [List.filter_cons, hsk]
  have hsp : (sizePass (walkTags tags) 0 env).1 = keptBytes (walkTags tags) := by
    have := sizePass_fst (walkTags tags) 0 env hbound (by omega)
    simpa using this
  by_cases h0 : keptBytes (walkTags tags) = 0
  · rw [copy_atags_copy_zero tags true (init_state env)
      (by simpa [init_state, hsp] using h0)]
    have hnil : body.filter (fun t => !skip_atag t.hdr.tag) = [] := by
      apply keptBytes_zero (fun t ht => (hb t ht).2.1)
      rw [← hw]
      exact h0
    simp [init_state, hfil, hnil]
  · rw [copy_atags_copy_some tags (init_state env)
      (by simpa [init_state, hsp] using h0)]
    rw [Option.getD_some, copyPass_eq_filter, hw, hfil]

/-- Witness for C2: the filtered buffer at the concrete example list. -/
theorem copy_atags_filters_regenerated_witness :
    ((copy_atags (some exList) true (init_state [])).fw_atags_copy).getD [] =
      exList.filter (fun t => !skip_atag t.hdr.tag) :=
  copy_atags_filters_regenerated exList [] (by decide)

/-- C3: for every well-formed source list with MEMORY record sizes
`s1..sn`, `dram_init` accumulates exactly `s1+...+sn` regardless of the
bank-table capacity, and `dram_init_banksize` fills the table with exactly
the first `min(n, CONFIG_NR_DRAM_BANKS)` `(start, size)` pairs in source
order. -/
theorem dram_extraction_sums_all_banks (tags : List tag) (cap : Nat)
    (h : srcWf tags = true)
    (hsum : (memSizes tags).sum < 4294967296) (hcap : 0 < cap) :
    dram_init tags 0 = (0, (memSizes tags).sum) ∧
    dram_init_banksize tags cap =
      (0, ((memRecords tags).take cap).map (fun t => (t.u_mem_start, t.u_mem_size))) ∧
    ((dram_init_banksize tags cap).2).length = min (memRecords tags).length cap := by
  have hget := fw_atags_get_of_wf h
  have hw := srcWf_walk h
  have hmem : memRecords tags.dropLast = memRecords tags := memRecords_dropLast h
  have hms : memSizes tags.dropLast = memSizes tags := by
    simp [memSizes, hmem]
  have h1 : dram_init tags 0 = (0, (memSizes tags).sum) := by
    simp only [dram_init, hget]
    rw [hw, memAccum_eq _ 0 (by rw [hms]; omega), hms]
    simp
  have h2 : dram_init_banksize tags cap =
      (0, ((memRecords tags).take cap).map (fun t => (t.u_mem_start, t.u_mem_size))) := by
    simp only [dram_init_banksize, hget]
    rw [hw, fillBanks_eq cap _ 0 hcap, Nat.sub_zero, hmem]
  refine ⟨h1, h2, ?_⟩
  rw [h2]
  simp [List.length_take, Nat.min_comm]

/-- Witness for C3: RAM totals and bank table at the concrete example
list, with a bank capacity of 2. -/
theorem dram_extraction_sums_all_banks_witness :
    dram_init exList 0 = (0, (memSizes exList).sum) ∧
    dram_init_banksize exList 2 =
      (0, ((memRecords exList).take 2).map (fun t => (t.u_mem_start, t.u_mem_size))) ∧
    ((dram_init_banksize exList 2).2).length = min (memRecords exList).length 2 :=
  dram_extraction_sums_all_banks exList 2 (by decide) (by decide) (by decide)

/-- C4: the record walk terminates on every input; a record with a zero
size field mid-list aborts the walk (it is treated as end-of-list), with no
error raised.  (The iterator is modelled from the spec, as `for_each_tag`
lives outside the board file.) -/
theorem walk_aborts_on_zero_size (pre post : List tag) (t : tag)
    (hpre : ∀ p ∈ pre, p.hdr.tag ≠ ATAG_NONE ∧ p.hdr.size ≠ 0)
    (ht : t.hdr.size = 0) :
    walkTags (pre ++ t :: post) = pre ∧
    (walkTags (pre ++ t :: post)).length ≤ (pre ++ t :: post).length := by
  have h1 : walkTags (pre ++ t :: post) = pre := by
    induction pre with
    | nil =>
      by_cases hn : t.hdr.tag = ATAG_NONE
      · simp [walkTags, hn]
      · simp [walkTags, hn, ht]
    | cons p ps ih =>
      have hp := hpre p (by simp)
      have h2 := ih (fun u hu => hpre u (by simp [hu]))
      simp [walkTags, hp.1, hp.2, h2]
  refine ⟨h1, ?_⟩
  rw [h1]
  simp

/-- Witness for C4: a zero-size record after two good records ends the walk
there. -/
theorem walk_aborts_on_zero_size_witness :
    walkTags ([coreT, memT] ++ zeroT :: [serT]) = [coreT, memT] ∧
    (walkTags ([coreT, memT] ++ zeroT :: [serT])).length ≤
      ([coreT, memT] ++ zeroT :: [serT]).length :=
  walk_aborts_on_zero_size [coreT, memT] [serT] zeroT (by decide) (by decide)

/-- C5: when the first record's tag is not CORE, `fw_atags_get` reports no
data; `dram_init` leaves the total at zero and `dram_init_banksize` leaves
the bank table empty (both returning `-EINVAL`), and `copy_atags` leaves
the engine state untouched (no filtered list), with no crash. -/
theorem invalid_first_tag_aborts (tags : List tag) (t0 : tag) (cap : Nat)
    (allocOk : Bool) (st : engine_state)
    (h1 : tags.head? = some t0) (h2 : t0.hdr.tag ≠ ATAG_CORE) :
    fw_atags_get tags = none ∧
    dram_init tags 0 = (-EINVAL, 0) ∧
    dram_init_banksize tags cap = (-EINVAL, []) ∧
    copy_atags (fw_atags_get tags) allocOk st = st := by
  cases tags with
  | nil => simp at h1
  | cons u ts =>
    have hu : u = t0 := by simpa using h1
    subst hu
    have hg : fw_atags_get (u :: ts) = none := by simp [fw_atags_get, h2]
    exact ⟨hg, by simp [dram_init, hg], by simp [dram_init_banksize, hg],
      by rw [hg]; rfl⟩

/-- Witness for C5: a list whose first record is a MEM tag. -/
theorem invalid_first_tag_aborts_witness :
    fw_atags_get badList = none ∧
    dram_init badList 0 = (-EINVAL, 0) ∧
    dram_init_banksize badList 2 = (-EINVAL, []) ∧
    copy_atags (fw_atags_get badList) true (init_state []) = init_state [] :=
  invalid_first_tag_aborts badList memT 2 true (init_state []) (by decide) (by decide)

/-- C6: with no `serial#` in the store, a SERIALNR record with `low = 1`,
`high = 2` makes the store map `serial#` to `"0000000200000001"` (high half
rendered first, each half zero-padded to 8 digits); with `serial#` already
present, extraction writes nothing and the existing value is unchanged. -/
theorem serial_extraction_idempotent (env1 env2 : env_store)
    (nr : tag_serialnr) (v : String)
    (h1 : env_get env1 "serial#" = none)
    (h2 : env_get env2 "serial#" = some v) :
    env_get (parse_serial env1 ⟨1, 2⟩) "serial#" = some "0000000200000001" ∧
    parse_serial env2 nr = env2 ∧
    env_get (parse_serial env2 nr) "serial#" = some v := by
  have hs : serialString ⟨1, 2⟩ = "0000000200000001" := by decide
  have hkeep : parse_serial env2 nr = env2 := by
    simp [parse_serial, h2]
  refine ⟨?_, hkeep, by rw [hkeep]; exact h2⟩
  have hw : parse_serial env1 ⟨1, 2⟩ = env_set env1 "serial#" (serialString ⟨1, 2⟩) := by
    unfold parse_serial
    rw [h1]
  rw [hw, hs]
  simp [env_get, env_set, List.lookup]

/-- Witness for C6: the empty store gains the formatted serial; a store
holding a sentinel keeps it. -/
theorem serial_extraction_idempotent_witness :
    env_get (parse_serial [] ⟨1, 2⟩) "serial#" = some "0000000200000001" ∧
    parse_serial [("serial#", "X")] ⟨5, 6⟩ = [("serial#", "X")] ∧
    env_get (parse_serial [("serial#", "X")] ⟨5, 6⟩) "serial#" = some "X" :=
  serial_extraction_idempotent [] [("serial#", "X")] ⟨5, 6⟩ "X" (by decide) (by decide)

/-- C7: if allocation fails during `copy_atags`, the operation is abandoned
silently: the copy pointer stays NULL, the later re-emission is a no-op,
and `misc_init_r` still returns success. -/
theorem alloc_failure_is_silent (tags : List tag) (env : env_store)
    (out : List Nat) (cursor : Nat) :
    (misc_init_r tags false (init_state env)).1 = 0 ∧
    ((misc_init_r tags false (init_state env)).2).fw_atags_copy = none ∧
    setup_board_tags ((misc_init_r tags false (init_state env)).2) out cursor =
      (out, cursor) := by
  have hc : ((misc_init_r tags false (init_state env)).2).fw_atags_copy = none := by
    simp only [misc_init_r]
    rw [copy_atags_alloc_fail]
    rfl
  refine ⟨rfl, hc, ?_⟩
  unfold setup_board_tags
  rw [hc]

/-- C8: with a filtered list produced, `setup_board_tags` writes the
filtered buffer verbatim at the caller's cursor and advances the cursor by
exactly the buffer's byte length; with no filtered list (for instance
before the engine has run), cursor and output are untouched and no error
occurs. -/
theorem reemission_appends_exactly (tags : List tag) (env : env_store)
    (out : List Nat) (cursor : Nat) (st0 : engine_state) (ts : List tag)
    (h : srcWf tags = true)
    (hnone : st0.fw_atags_copy = none)
    (hsome : (copy_atags (some tags) true (init_state env)).fw_atags_copy = some ts) :
    setup_board_tags st0 out cursor = (out, cursor) ∧
    setup_board_tags (copy_atags (some tags) true (init_state env)) out cursor =
      (out ++ tagsBytes ts, cursor + (tagsBytes ts).length) := by
  constructor
  · unfold setup_board_tags
    rw [hnone]
  · obtain ⟨hbound, hkept⟩ := srcWf_kept_facts h
    have hsp : (sizePass (walkTags tags) 0 env).1 = keptBytes (walkTags tags) := by
      have := sizePass_fst (walkTags tags) 0 env hbound (by omega)
      simpa using this
    have hts : ts = copyPass (walkTags tags) := by
      by_cases h0 : keptBytes (walkTags tags) = 0
      · rw [copy_atags_copy_zero tags true (init_state env)
          (by simpa [init_state, hsp] using h0)] at hsome
        simp [init_state] at hsome
      · rw [copy_atags_copy_some tags (init_state env)
          (by simpa [init_state, hsp] using h0)] at hsome
        exact (Option.some_inj.mp hsome).symm
    have hsize : (copy_atags (some tags) true (init_state env)).fw_atags_size
        = keptBytes (walkTags tags) := by
      rw [copy_atags_size]
      simpa [init_state] using hsp
    have hwfall : ∀ t ∈ (walkTags tags).filter (fun t => !skip_atag t.hdr.tag),
        t.hdr.size = 2 + t.payload.length := by
      obtain ⟨body, last, heq, hdrop, hl, hb⟩ := srcWf_decomp h
      intro t ht
      have h1 : t ∈ walkTags tags := (List.mem_filter.mp ht).1
      rw [srcWf_walk h, ← hdrop] at h1
      exact (hb t h1).2.2
    have hlen : (tagsBytes ts).length = keptBytes (walkTags tags) := by
      rw [hts, copyPass_eq_filter, tagsBytes_length _ hwfall]
      rfl
    have hred : setup_board_tags (copy_atags (some tags) true (init_state env)) out cursor
        = (out ++ (tagsBytes ts).take
            ((copy_atags (some tags) true (init_state env)).fw_atags_size),
          cursor + (copy_atags (some tags) true (init_state env)).fw_atags_size) := by
      unfold setup_board_tags
      rw [hsome]
    rw [hred, hsize, ← hlen, List.take_length]

/-- Witness for C8: re-emission before and after the engine has run on the
example list. -/
theorem reemission_appends_exactly_witness :
    setup_board_tags (init_state []) [9] 1 = ([9], 1) ∧
    setup_board_tags (copy_atags (some exList) true (init_state [])) [9] 1 =
      ([9] ++ tagsBytes [memT, serT, memT2, cmdT],
        1 + (tagsBytes [memT, serT, memT2, cmdT]).length) :=
  reemission_appends_exactly exList [] [9] 1 (init_state []) [memT, serT, memT2, cmdT]
    (by decide) (by decide) (by decide)

/-- C9: filtering is idempotent: running the classifier/filter over an
already-filtered list returns it unchanged (the filtered list is a fixed
point of filtering). -/
theorem filtering_is_fixed_point (ts : List tag) :
    copyPass (copyPass ts) = copyPass ts := by
  induction ts with
  | nil => rfl
  | cons t ts ih =>
    by_cases hsk : skip_atag t.hdr.tag
    · simp [copyPass, hsk, ih]
    · have hsk' : skip_atag t.hdr.tag = false := by simpa using hsk
      simp [copyPass, hsk', ih]

/-- C10: for every pair of 32-bit halves, the formatted serial string is
exactly 16 characters, so with its terminating NUL it fits the 17-byte
local buffer of `parse_serial`. -/
theorem serial_string_fits_buffer (nr : tag_serialnr) :
    (serialString nr).length = 16 ∧ (serialString nr).length + 1 ≤ 17 := by
  have h8 : ∀ n : Nat, (hex8 n).length = 8 := by
    intro n
    simp [hex8, String.length]
  have h16 : (serialString nr).length = 16 := by
    simp [serialString, String.length_append, h8]
  exact ⟨h16, by omega⟩

end Stemmy
